import Mathlib

/-!
Verification of the cli_kanban workspace CLI and board engine.

This file gives a shallow embedding of the `cli_kanban` program:

* the workspace layer of `src/main.go` (workspace-name validation, the
  legacy-database migration, workspace listing and deletion), modelled as
  pure functions over an explicit file-system state and a trace of the
  storage operations performed; and
* the board engine (columns, tasks, the mutating operations) which the
  specification describes; its Go sources live outside the provided tree,
  so those definitions are modelled from the specification text.

Theorems at the end of the file settle the specification claims.
-/

namespace CliKanban

/-! ## String helpers

Character-list implementations of the Go string operations used by
`main.go` (`strings.HasPrefix`, `strings.HasSuffix`, `strings.TrimPrefix`,
`strings.TrimSuffix`, `strings.TrimSpace`, byte-wise string comparison for
`sort.Strings`).  They are written over `String.data` so that every
function reduces inside the kernel. -/

/-- Lexicographic comparison of character lists; on UTF-8 strings this
agrees with Go's byte-wise `<=` used by `sort.Strings`. -/
def charListLe : List Char → List Char → Bool
  | [], _ => true
  | _ :: _, [] => false
  | a :: as, b :: bs => if a < b then true else if b < a then false else charListLe as bs

/-- Go `a <= b` on strings (byte order; equals code-point order on UTF-8). -/
def strLe (a b : String) : Bool := charListLe a.data b.data

/-- Drop the last `n` characters (Go `s[:len(s)-n]`). -/
def dropRightCh (l : List Char) (n : Nat) : List Char := l.take (l.length - n)

/-- Go `strings.TrimPrefix`. -/
def trimPrefixStr (s p : String) : String :=
  if p.data.isPrefixOf s.data then ⟨s.data.drop p.data.length⟩ else s

/-- Go `strings.TrimSuffix`. -/
def trimSuffixStr (s suf : String) : String :=
  if suf.data.isSuffixOf s.data then ⟨dropRightCh s.data suf.data.length⟩ else s

/-- Go `strings.TrimSpace` (whitespace at both ends removed). -/
def strTrim (s : String) : String :=
  ⟨((s.data.dropWhile Char.isWhitespace).reverse.dropWhile Char.isWhitespace).reverse⟩

/-! ## Workspace CLI model (from `src/main.go`) -/

/-- The `defaultWorkspace` constant of `main.go`. -/
def defaultWorkspace : String := "default"

/-- The `dbFilePrefix` constant of `main.go` (file-name stem of a workspace db). -/
def dbFilePrefixStr : String := "cli_kanban__"

/-- One character of the workspace-name alphabet `[a-z0-9_-]`. -/
def isWorkspaceNameChar (c : Char) : Bool :=
  (decide ('a' ≤ c) && decide (c ≤ 'z')) || (decide ('0' ≤ c) && decide (c ≤ '9')) ||
    c == '_' || c == '-'

/-- Matching against `workspaceNameRe`, the regex `^[a-z0-9_-]{1,32}$` of `main.go`. -/
def workspaceNameMatches (s : String) : Bool :=
  decide (1 ≤ s.data.length) && decide (s.data.length ≤ 32) && s.data.all isWorkspaceNameChar

/-- Error taxonomy used by the models (the spec's `ValidationError`,
`NotFound`, and storage failures). -/
inductive KErr where
  | validationError
  | notFound
  | storageError
  deriving DecidableEq

instance {ε α : Type} [DecidableEq ε] [DecidableEq α] : DecidableEq (Except ε α) := fun x y =>
  match x, y with
  | .ok a, .ok b => if h : a = b then .isTrue (by rw [h]) else .isFalse (by simp [h])
  | .error a, .error b => if h : a = b then .isTrue (by rw [h]) else .isFalse (by simp [h])
  | .ok _, .error _ => .isFalse (by simp)
  | .error _, .ok _ => .isFalse (by simp)

/-- A storage access performed by the CLI layer (directory creation,
legacy migration, opening a database, removing a database file). -/
inductive StorageOp where
  | mkdirDataDir
  | migrateLegacy (oldPath newPath : String)
  | openDb (path : String)
  | removeFile (path : String)
  deriving DecidableEq

/-- File system modelled as an association list from path to file content
(content abstracted to a `Nat` token). -/
abbrev FS := List (String × Nat)

/-- Content of `p`, if the file exists. -/
def fsGet (fs : FS) (p : String) : Option Nat := fs.lookup p

/-- Removal of `p` from the file system (`os.Remove`). -/
def fsRemove (fs : FS) (p : String) : FS := fs.filter (fun e => decide (e.1 ≠ p))

/-- Create/overwrite `p` with content `v`. -/
def fsSet (fs : FS) (p : String) (v : Nat) : FS := (p, v) :: fsRemove fs p

/-- The `fileExists` helper of `main.go` (`os.Stat` succeeding). -/
def fileExists (fs : FS) (p : String) : Bool := (fsGet fs p).isSome

/-- Injected I/O failures for the three fallible steps of `copyFile`
(`io.Copy`, `File.Sync`, `File.Close`). -/
structure IOFaults where
  copyFails : Bool
  syncFails : Bool
  closeFails : Bool
  deriving DecidableEq

/-- The `copyFile` function of `main.go`: opens `src`, creates `dst` with `O_EXCL`
(failing if it already exists), then copies, syncs and closes; on a copy,
sync or close failure the partially written `dst` is removed
(`os.Remove(dst)` in each error branch). -/
def copyFile (fs : FS) (src dst : String) (faults : IOFaults) : FS × Except KErr Unit :=
  match fsGet fs src with
  | none => (fs, .error .storageError)
  | some content =>
    match fsGet fs dst with
    | some _ => (fs, .error .storageError)
    | none =>
      if faults.copyFails then (fsRemove (fsSet fs dst content) dst, .error .storageError)
      else if faults.syncFails then (fsRemove (fsSet fs dst content) dst, .error .storageError)
      else if faults.closeFails then (fsRemove (fsSet fs dst content) dst, .error .storageError)
      else (fsSet fs dst content, .ok ())

/-- The `migrateLegacyDefaultDB` function of `main.go`: a no-op when the destination
already exists or the legacy file is absent, otherwise a copy. -/
def migrateLegacyDefaultDB (fs : FS) (oldPath newPath : String) (faults : IOFaults) :
    FS × Except KErr Unit :=
  if fileExists fs newPath then (fs, .ok ())
  else if fileExists fs oldPath then copyFile fs oldPath newPath faults
  else (fs, .ok ())

/-- Database file name for a workspace, the prefix followed by the name and `.db`. -/
def dbFileName (ws : String) : String := dbFilePrefixStr ++ ws ++ ".db"

/-- The workspace-opening path of `runTUI` in `main.go` (after the
`--list`/`--delete` dispatch): substitutes `default` for an empty flag,
validates the name, and only then performs storage operations (directory
creation, legacy migration for the default workspace, database open).
Returns the trace of storage operations and the resolved workspace. -/
def runOpenModel (workspace : String) : List StorageOp × Except KErr String :=
  let ws := if workspace = "" then defaultWorkspace else workspace
  if workspaceNameMatches ws then
    let migOps :=
      if ws = defaultWorkspace then
        [StorageOp.migrateLegacy ".cli_kanban.db" (dbFileName defaultWorkspace)]
      else []
    (StorageOp.mkdirDataDir :: migOps ++ [StorageOp.openDb (dbFileName ws)], .ok ws)
  else ([], .error .validationError)

/-- The `deleteWorkspaceDatabase` function of `main.go`: validates the name before any
storage access, then attempts `os.Remove` of the workspace database,
turning `ErrNotExist` into a "workspace not found" error. -/
def deleteWorkspaceModel (ws : String) (fs : FS) : List StorageOp × FS × Except KErr Unit :=
  if workspaceNameMatches ws then
    let p := dbFileName ws
    if fileExists fs p then ([StorageOp.removeFile p], fsRemove fs p, .ok ())
    else ([StorageOp.removeFile p], fs, .error .notFound)
  else ([], fs, .error .validationError)

/-! ## Workspace listing model (from `listWorkspaceDatabases` in `main.go`) -/

/-- A directory entry as returned by `os.ReadDir`. -/
structure DirEntry where
  name : String
  isDir : Bool
  deriving DecidableEq

/-- Workspace name extracted from a file name: trim the prefix, then `.db`. -/
def extractWsName (name : String) : String :=
  trimSuffixStr (trimPrefixStr name dbFilePrefixStr) ".db"

/-- An entry that `listWorkspaceDatabases` keeps: a non-directory whose
name starts with the db prefix, ends with `.db`, and whose extracted
workspace name is non-empty. -/
def relevantEntry (e : DirEntry) : Bool :=
  !e.isDir && dbFilePrefixStr.data.isPrefixOf e.name.data &&
    (".db").data.isSuffixOf e.name.data && !(extractWsName e.name == "")

/-- Insert a string into a sorted list (byte order). -/
def insertSorted (x : String) : List String → List String
  | [] => [x]
  | y :: ys => if strLe x y then x :: y :: ys else y :: insertSorted x ys

/-- Sorting model for Go's `sort.Strings` (on `List String` the result of
any comparison sort is determined by the multiset, so insertion sort is
extensionally the same function). -/
def sortStrings : List String → List String
  | [] => []
  | x :: xs => insertSorted x (sortStrings xs)

/-- Go-map lookup with last-write-wins semantics (`pathsByWorkspace`). -/
def lookupPathFor (pairs : List (String × String)) (ws : String) : String :=
  ((pairs.reverse).lookup ws).getD ""

/-- One iteration of the collection loop of `listWorkspaceDatabases`:
the workspace/path pair an entry contributes, if any. -/
def entryPair (dataDir : String) (e : DirEntry) : Option (String × String) :=
  if e.isDir then none
  else if !(dbFilePrefixStr.data.isPrefixOf e.name.data && (".db").data.isSuffixOf e.name.data)
  then none
  else
    let ws := extractWsName e.name
    if ws = "" then none
    else some (ws, dataDir ++ "/" ++ e.name)

/-- Workspace/path pairs collected by the loop of
`listWorkspaceDatabases`. -/
def workspacePairs (dataDir : String) (entries : List DirEntry) : List (String × String) :=
  entries.filterMap (entryPair dataDir)

/-- The `listWorkspaceDatabases` function of `main.go` as a pure function: given whether
the data directory exists and its entries, the lines printed. -/
def listWorkspaceOutput (dataDirExists : Bool) (dataDir : String) (entries : List DirEntry) :
    List String :=
  if dataDirExists then
    let pairs := workspacePairs dataDir entries
    let sorted := sortStrings (pairs.map Prod.fst)
    if sorted = [] then ["No workspaces found."]
    else sorted.map (fun ws => ws ++ "\t" ++ lookupPathFor pairs ws)
  else ["No workspaces found."]

/-! ## Board engine

The Go sources of the board engine (`internal/db`, `internal/tui`) are not
part of the provided tree; the definitions below are modelled from the
specification (§3, §4.1 of `spec.md`). -/

/-- Modelled from the spec: a task of the board engine (`internal/db`),
with stable identifier, title, optional description and a stored position. -/
structure Task where
  id : Nat
  title : String
  description : String
  pos : Nat
  deriving DecidableEq

/-- Modelled from the spec: a column, with stable identifier, display name
and its ordered task sequence. -/
structure Column where
  id : Nat
  name : String
  tasks : List Task
  deriving DecidableEq

/-- Modelled from the spec: a board is the ordered sequence of columns of
the active workspace. -/
abbrev Board := List Column

/-- Renumber a task list so stored positions become `i, i+1, ...`. -/
def renumberFrom (i : Nat) : List Task → List Task
  | [] => []
  | t :: ts => { t with pos := i } :: renumberFrom (i + 1) ts

/-- Modelled from the spec: position renumbering after a structural
change — resequence positions `0..n-1` in list order. -/
def renumber (ts : List Task) : List Task := renumberFrom 0 ts

/-- Maximum stored position in a task list (0 when empty). -/
def maxPos (ts : List Task) : Nat := ts.foldl (fun m t => max m t.pos) 0

/-- First column with the given id. -/
def findColumn (b : Board) (cid : Nat) : Option Column :=
  b.find? (fun c => c.id == cid)

/-- First column containing a task with the given id, with that task. -/
def findTask (b : Board) (tid : Nat) : Option (Column × Task) :=
  match b with
  | [] => none
  | c :: cs =>
    match c.tasks.find? (fun t => t.id == tid) with
    | some t => some (c, t)
    | none => findTask cs tid

/-- Replace the first column with the given id by its image under `f`. -/
def updateColumn (b : Board) (cid : Nat) (f : Column → Column) : Board :=
  match b with
  | [] => []
  | c :: cs => if c.id = cid then f c :: cs else c :: updateColumn cs cid f

/-- Insert a task at index `n` (appending when `n` exceeds the length). -/
def insertAt (ts : List Task) (n : Nat) (t : Task) : List Task :=
  ts.take n ++ t :: ts.drop n

/-- Task ids of one column in order. -/
def colTaskIds (c : Column) : List Nat := c.tasks.map Task.id

/-- All task ids of the board, column by column. -/
def taskIds (b : Board) : List Nat := (b.map colTaskIds).flatten

/-- A fresh task id: one more than every id present. -/
def nextTaskId (b : Board) : Nat := (taskIds b).foldl (fun m i => max m i) 0 + 1

/-- Append a fresh task with the given title at the end of a column, at
position `max+1` (0 when the column is empty). -/
def appendTaskToColumn (nid : Nat) (title : String) (c : Column) : Column :=
  { c with tasks := c.tasks ++
      [{ id := nid, title := title, description := "",
         pos := if c.tasks.isEmpty then 0 else maxPos c.tasks + 1 }] }

/-- Remove the task with the given id from a column and renumber. -/
def removeTaskFromColumn (tid : Nat) (c : Column) : Column :=
  { c with tasks := renumber (c.tasks.filter (fun x => decide (x.id ≠ tid))) }

/-- Insert a task at a position into a column and renumber. -/
def insertTaskInColumn (t : Task) (p : Nat) (c : Column) : Column :=
  { c with tasks := renumber (insertAt c.tasks p t) }

/-- Remove the task with the given id, reinsert it at a position, renumber. -/
def removeInsertInColumn (tid : Nat) (t : Task) (p : Nat) (c : Column) : Column :=
  { c with tasks := renumber (insertAt (c.tasks.filter (fun x => decide (x.id ≠ tid))) p t) }

/-- Modelled from the spec: `addTask(columnId, title)` — `ValidationError`
if the title is empty after trimming whitespace, `NotFound` for an unknown
column, otherwise append at the end with position `max+1` (0 if empty). -/
def addTask (b : Board) (cid : Nat) (title : String) : Except KErr Board :=
  if strTrim title = "" then .error .validationError
  else
    match findColumn b cid with
    | none => .error .notFound
    | some _ => .ok (updateColumn b cid (appendTaskToColumn (nextTaskId b) title))

/-- Modelled from the spec: `editTask(taskId, newTitle?, newDescription?)` —
`NotFound` for an unknown task, `ValidationError` when a new title is
provided and empty. -/
def editTask (b : Board) (tid : Nat) (newTitle newDescription : Option String) :
    Except KErr Board :=
  match findTask b tid with
  | none => .error .notFound
  | some _ =>
    if newTitle = some "" then .error .validationError
    else
      .ok (b.map (fun c =>
        { c with tasks := c.tasks.map (fun t =>
            if t.id = tid then
              { t with title := newTitle.getD t.title,
                       description := newDescription.getD t.description }
            else t) }))

/-- Modelled from the spec: `moveTask(taskId, targetColumnId, targetPosition)`
— `NotFound` for unknown task or column; clamps the target position into
`[0, len(targetColumn.tasks)]`; removes the task from its source column and
inserts it into the target, renumbering both columns from 0. -/
def moveTask (b : Board) (tid cid targetPos : Nat) : Except KErr Board :=
  match findTask b tid with
  | none => .error .notFound
  | some (src, t) =>
    match findColumn b cid with
    | none => .error .notFound
    | some tgt =>
      if src.id = cid then
        .ok (updateColumn b cid (removeInsertInColumn tid t (min targetPos tgt.tasks.length)))
      else
        .ok (updateColumn (updateColumn b src.id (removeTaskFromColumn tid))
          cid (insertTaskInColumn t (min targetPos tgt.tasks.length)))

/-- Modelled from the spec: `reorderTask(taskId, targetPosition)` — move the
task within its own column, with the same clamping and renumbering. -/
def reorderTask (b : Board) (tid targetPos : Nat) : Except KErr Board :=
  match findTask b tid with
  | none => .error .notFound
  | some (src, t) =>
    .ok (updateColumn b src.id (removeInsertInColumn tid t (min targetPos src.tasks.length)))

/-- Modelled from the spec: `deleteTask(taskId)` — `NotFound` for an unknown
task; otherwise remove it and renumber the remaining tasks of its column. -/
def deleteTask (b : Board) (tid : Nat) : Except KErr Board :=
  if b.any (fun c => c.tasks.any (fun t => t.id == tid)) then
    .ok (b.map (fun c =>
      if c.tasks.any (fun t => t.id == tid) then removeTaskFromColumn tid c else c))
  else .error .notFound

/-- Sort a task list by stored position (stable insertion sort). -/
def insertByPos (t : Task) : List Task → List Task
  | [] => [t]
  | u :: us => if t.pos ≤ u.pos then t :: u :: us else u :: insertByPos t us

/-- Stable sort by stored position. -/
def sortByPos : List Task → List Task
  | [] => []
  | t :: ts => insertByPos t (sortByPos ts)

/-- Modelled from the spec: `load` — reconstruct in-memory ordering by
stored position and auto-repair by resequencing positions `0..n-1` in that
order. -/
def load (stored : List Column) : Board :=
  stored.map (fun c => { c with tasks := renumber (sortByPos c.tasks) })

/-- One mutating operation of the board engine. -/
inductive Mutation where
  | add (columnId : Nat) (title : String)
  | edit (taskId : Nat) (newTitle newDescription : Option String)
  | move (taskId targetColumnId targetPos : Nat)
  | reorder (taskId targetPos : Nat)
  | delete (taskId : Nat)

/-- Apply a mutation to a board. -/
def applyMutation : Mutation → Board → Except KErr Board
  | .add cid title, b => addTask b cid title
  | .edit tid nt nd, b => editTask b tid nt nd
  | .move tid cid p, b => moveTask b tid cid p
  | .reorder tid p, b => reorderTask b tid p
  | .delete tid, b => deleteTask b tid

/-- The position invariant for one column: stored positions are exactly
`0..n-1` in order. -/
def posOK (c : Column) : Prop := c.tasks.map Task.pos = List.range c.tasks.length

instance (c : Column) : Decidable (posOK c) := by unfold posOK; infer_instance

/-- The position invariant for every column of the board. -/
def BoardPosOK (b : Board) : Prop := ∀ c ∈ b, posOK c

instance (b : Board) : Decidable (BoardPosOK b) := by unfold BoardPosOK; infer_instance

/-- Well-formed board: column ids are unique and task ids are globally
unique (every task in exactly one column, once). -/
def Wf (b : Board) : Prop := (b.map Column.id).Nodup ∧ (taskIds b).Nodup

instance (b : Board) : Decidable (Wf b) := by unfold Wf; infer_instance

/-- Number of columns whose ordered sequence claims the task. -/
def columnsClaiming (b : Board) (tid : Nat) : Nat :=
  (b.filter (fun c => c.tasks.any (fun t => t.id == tid))).length

/-! ## Helper lemmas about renumbering and positions -/

theorem renumberFrom_map_pos (i : Nat) (ts : List Task) :
    (renumberFrom i ts).map Task.pos = List.range' i ts.length := by
  induction ts generalizing i with
  | nil => rfl
  | cons t ts ih => simp [renumberFrom, List.range'_succ, ih]

theorem renumberFrom_map_id (i : Nat) (ts : List Task) :
    (renumberFrom i ts).map Task.id = ts.map Task.id := by
  induction ts generalizing i with
  | nil => rfl
  | cons t ts ih => simp [renumberFrom, ih]

theorem renumber_map_pos (ts : List Task) :
    (renumber ts).map Task.pos = List.range ts.length := by
  rw [renumber, renumberFrom_map_pos, List.range_eq_range']

theorem renumber_map_id (ts : List Task) : (renumber ts).map Task.id = ts.map Task.id :=
  renumberFrom_map_id 0 ts

theorem renumber_length (ts : List Task) : (renumber ts).length = ts.length := by
  have h := congrArg List.length (renumber_map_id ts)
  simpa using h

theorem posOK_renumber (cid : Nat) (nm : String) (ts : List Task) :
    posOK ⟨cid, nm, renumber ts⟩ := by
  unfold posOK
  simp only []
  rw [renumber_length, renumber_map_pos]

theorem posOK_removeTaskFromColumn (tid : Nat) (c : Column) :
    posOK (removeTaskFromColumn tid c) := posOK_renumber _ _ _

theorem posOK_insertTaskInColumn (t : Task) (p : Nat) (c : Column) :
    posOK (insertTaskInColumn t p c) := posOK_renumber _ _ _

theorem posOK_removeInsertInColumn (tid : Nat) (t : Task) (p : Nat) (c : Column) :
    posOK (removeInsertInColumn tid t p c) := posOK_renumber _ _ _

theorem foldl_max_init_le (l : List Nat) (a : Nat) :
    a ≤ l.foldl (fun m i => max m i) a := by
  induction l generalizing a with
  | nil => exact Nat.le_refl a
  | cons x xs ih => exact Nat.le_trans (Nat.le_max_left a x) (ih (max a x))

theorem mem_le_foldl_max {l : List Nat} {x : Nat} (h : x ∈ l) (a : Nat) :
    x ≤ l.foldl (fun m i => max m i) a := by
  induction l generalizing a with
  | nil => cases h
  | cons y ys ih =>
    rcases List.mem_cons.mp h with rfl | h'
    · exact Nat.le_trans (Nat.le_max_right a x) (foldl_max_init_le ys (max a x))
    · exact ih h' (max a y)

theorem nextTaskId_not_mem (b : Board) : nextTaskId b ∉ taskIds b := by
  intro h
  have hle := mem_le_foldl_max h 0
  unfold nextTaskId at h hle
  omega

theorem maxPos_eq_foldl (ts : List Task) :
    maxPos ts = (ts.map Task.pos).foldl (fun m i => max m i) 0 := by
  unfold maxPos
  rw [List.foldl_map]

theorem foldl_max_range (n : Nat) :
    (List.range n).foldl (fun m i => max m i) 0 = n - 1 := by
  induction n with
  | zero => rfl
  | succ k ih =>
    rw [List.range_succ, List.foldl_append, ih]
    simp only [List.foldl_cons, List.foldl_nil]
    omega

theorem maxPos_of_posOK {ts : List Task} (h : ts.map Task.pos = List.range ts.length) :
    maxPos ts = ts.length - 1 := by
  rw [maxPos_eq_foldl, h, foldl_max_range]

theorem posOK_appendTaskToColumn {c : Column} (hc : posOK c) (nid : Nat) (title : String) :
    posOK (appendTaskToColumn nid title c) := by
  unfold posOK appendTaskToColumn at *
  simp only [List.map_append, List.length_append, List.map_cons, List.map_nil,
    List.length_cons, List.length_nil]
  rw [hc, List.range_succ]
  congr 2
  rcases h : c.tasks with _ | ⟨t, ts⟩
  · rfl
  · have hlen : c.tasks.length = ts.length + 1 := by rw [h]; rfl
    have hmax : maxPos c.tasks = c.tasks.length - 1 := maxPos_of_posOK hc
    rw [h] at hmax hlen
    simp only [List.isEmpty_cons, Bool.false_eq_true, if_false]
    rw [hmax]
    omega

/-! ## Helper lemmas about column lookup and update -/

theorem findColumn_some {b : Board} {cid : Nat} {c : Column} (h : findColumn b cid = some c) :
    c ∈ b ∧ c.id = cid := by
  refine ⟨List.mem_of_find?_eq_some h, ?_⟩
  have := List.find?_some h
  simpa using this

theorem findColumn_of_mem_nodup {b : Board} {c : Column} (hm : c ∈ b)
    (hnd : (b.map Column.id).Nodup) : findColumn b c.id = some c := by
  induction b with
  | nil => cases hm
  | cons d ds ih =>
    simp only [List.map_cons, List.nodup_cons] at hnd
    rcases List.mem_cons.mp hm with rfl | hm'
    · unfold findColumn
      simp only [List.find?_cons, beq_self_eq_true]
    · have hne : (d.id == c.id) = false := by
        simp only [beq_eq_false_iff_ne, ne_eq]
        intro he
        exact hnd.1 (he ▸ List.mem_map_of_mem Column.id hm')
      unfold findColumn at *
      simp only [List.find?_cons, hne]
      exact ih hm' hnd.2

theorem findColumn_decomp {b : Board} {cid : Nat} {c₀ : Column}
    (h : findColumn b cid = some c₀) :
    ∃ pre post, b = pre ++ c₀ :: post ∧ (∀ c ∈ pre, c.id ≠ cid) ∧
      ∀ f : Column → Column, updateColumn b cid f = pre ++ f c₀ :: post := by
  induction b with
  | nil => cases h
  | cons c cs ih =>
    unfold findColumn at h
    by_cases hc : c.id = cid
    · have hc' : (c.id == cid) = true := by simpa using hc
      simp only [List.find?_cons, hc'] at h
      injection h with h
      subst h
      refine ⟨[], cs, rfl, ?_, ?_⟩
      · intro d hd
        cases hd
      · intro f
        unfold updateColumn
        rw [if_pos hc]
        rfl
    · have hc' : (c.id == cid) = false := by simpa using hc
      simp only [List.find?_cons, hc'] at h
      obtain ⟨pre, post, hb, hpre, hupd⟩ := ih h
      refine ⟨c :: pre, post, by rw [hb]; rfl, ?_, fun f => ?_⟩
      · intro d hd
        rcases List.mem_cons.mp hd with rfl | hd'
        · exact hc
        · exact hpre d hd'
      · unfold updateColumn
        rw [if_neg hc, hupd f]
        rfl

theorem mem_updateColumn {b : Board} {cid : Nat} {f : Column → Column} {c' : Column}
    (h : c' ∈ updateColumn b cid f) : c' ∈ b ∨ ∃ c, c ∈ b ∧ c' = f c := by
  induction b with
  | nil => cases h
  | cons c cs ih =>
    unfold updateColumn at h
    by_cases hc : c.id = cid
    · rw [if_pos hc] at h
      rcases List.mem_cons.mp h with rfl | h'
      · exact Or.inr ⟨c, List.mem_cons_self c cs, rfl⟩
      · exact Or.inl (List.mem_cons_of_mem c h')
    · rw [if_neg hc] at h
      rcases List.mem_cons.mp h with rfl | h'
      · exact Or.inl (List.mem_cons_self c' cs)
      · rcases ih h' with hm | ⟨d, hd, he⟩
        · exact Or.inl (List.mem_cons_of_mem c hm)
        · exact Or.inr ⟨d, List.mem_cons_of_mem c hd, he⟩

theorem updateColumn_map_id (f : Column → Column) (hf : ∀ c, (f c).id = c.id)
    (b : Board) (cid : Nat) :
    (updateColumn b cid f).map Column.id = b.map Column.id := by
  induction b with
  | nil => rfl
  | cons c cs ih =>
    unfold updateColumn
    by_cases hc : c.id = cid
    · rw [if_pos hc]
      simp [hf c]
    · rw [if_neg hc]
      simp [ih]

theorem findColumn_updateColumn_other (f : Column → Column) (hf : ∀ c, (f c).id = c.id)
    {b : Board} {cid cid' : Nat} (hne : cid' ≠ cid) :
    findColumn (updateColumn b cid f) cid' = findColumn b cid' := by
  induction b with
  | nil => rfl
  | cons c cs ih =>
    unfold updateColumn
    by_cases hc : c.id = cid
    · rw [if_pos hc]
      have h1 : ((f c).id == cid') = false := by
        simp only [beq_eq_false_iff_ne, ne_eq, hf c, hc]
        exact fun he => hne he.symm
      have h2 : (c.id == cid') = false := by
        simp only [beq_eq_false_iff_ne, ne_eq, hc]
        exact fun he => hne he.symm
      unfold findColumn
      simp only [List.find?_cons, h1, h2]
    · rw [if_neg hc]
      unfold findColumn
      by_cases h : c.id = cid'
      · have h' : (c.id == cid') = true := by simpa using h
        simp only [List.find?_cons, h']
      · have h' : (c.id == cid') = false := by simpa using h
        simp only [List.find?_cons, h']
        exact ih

theorem findColumn_updateColumn_self (f : Column → Column) (hf : ∀ c, (f c).id = c.id)
    {b : Board} {cid : Nat} {c₀ : Column} (h : findColumn b cid = some c₀) :
    findColumn (updateColumn b cid f) cid = some (f c₀) := by
  induction b with
  | nil => cases h
  | cons c cs ih =>
    unfold findColumn at h
    unfold updateColumn
    by_cases hc : c.id = cid
    · have hc' : (c.id == cid) = true := by simpa using hc
      simp only [List.find?_cons, hc'] at h
      injection h with h
      subst h
      rw [if_pos hc]
      unfold findColumn
      have hfc : ((f c).id == cid) = true := by simp [hf c, hc]
      simp only [List.find?_cons, hfc]
    · have hc' : (c.id == cid) = false := by simpa using hc
      simp only [List.find?_cons, hc'] at h
      rw [if_neg hc]
      unfold findColumn
      simp only [List.find?_cons, hc']
      exact ih h

/-! ## Helper lemmas about task lookup -/

theorem findTask_some {b : Board} {tid : Nat} {src : Column} {t : Task}
    (h : findTask b tid = some (src, t)) : src ∈ b ∧ t ∈ src.tasks ∧ t.id = tid := by
  induction b with
  | nil => cases h
  | cons c cs ih =>
    unfold findTask at h
    rcases hf : c.tasks.find? (fun t => t.id == tid) with _ | t'
    · rw [hf] at h
      obtain ⟨h1, h2, h3⟩ := ih h
      exact ⟨List.mem_cons_of_mem c h1, h2, h3⟩
    · rw [hf] at h
      injection h with h
      have h1 : src = c := (congrArg Prod.fst h).symm
      have h2 : t = t' := (congrArg Prod.snd h).symm
      subst h1
      subst h2
      refine ⟨List.mem_cons_self _ _, List.mem_of_find?_eq_some hf, ?_⟩
      have := List.find?_some hf
      simpa using this

theorem findTask_none_iff {b : Board} {tid : Nat} :
    findTask b tid = none ↔ ∀ c ∈ b, ∀ t ∈ c.tasks, t.id ≠ tid := by
  induction b with
  | nil => simp [findTask]
  | cons c cs ih =>
    unfold findTask
    constructor
    · intro h d hd t ht
      rcases hf : c.tasks.find? (fun t => t.id == tid) with _ | t'
      · rw [hf] at h
        rcases List.mem_cons.mp hd with rfl | hd'
        · have := List.find?_eq_none.mp hf t ht
          simpa using this
        · exact ih.mp h d hd' t ht
      · rw [hf] at h
        cases h
    · intro h
      have hf : c.tasks.find? (fun t => t.id == tid) = none := by
        rw [List.find?_eq_none]
        intro t ht
        simpa using h c (List.mem_cons_self c cs) t ht
      rw [hf]
      exact ih.mpr fun d hd t ht => h d (List.mem_cons_of_mem c hd) t ht

theorem boardAny_iff {b : Board} {tid : Nat} :
    (b.any (fun c => c.tasks.any (fun t => t.id == tid))) = true ↔
      ∃ c ∈ b, ∃ t ∈ c.tasks, t.id = tid := by
  simp [List.any_eq_true]

theorem findTask_isSome_of_any {b : Board} {tid : Nat}
    (h : (b.any (fun c => c.tasks.any (fun t => t.id == tid))) = true) :
    findTask b tid ≠ none := by
  obtain ⟨c, hc, t, ht, hid⟩ := boardAny_iff.mp h
  intro hn
  exact findTask_none_iff.mp hn c hc t ht hid

theorem any_of_findTask_some {b : Board} {tid : Nat} {src : Column} {t : Task}
    (h : findTask b tid = some (src, t)) :
    (b.any (fun c => c.tasks.any (fun t => t.id == tid))) = true := by
  obtain ⟨h1, h2, h3⟩ := findTask_some h
  exact boardAny_iff.mpr ⟨src, h1, t, h2, h3⟩

/-! ## Helper lemmas about task ids and counting -/

theorem taskIds_cons (c : Column) (cs : Board) :
    taskIds (c :: cs) = colTaskIds c ++ taskIds cs := by
  simp [taskIds]

theorem taskIds_append (l₁ l₂ : Board) :
    taskIds (l₁ ++ l₂) = taskIds l₁ ++ taskIds l₂ := by
  simp [taskIds]

theorem insertAt_perm (ts : List Task) (n : Nat) (t : Task) :
    (insertAt ts n t).Perm (t :: ts) := by
  unfold insertAt
  have h := @List.perm_middle _ t (ts.take n) (ts.drop n)
  rw [List.take_append_drop] at h
  exact h

theorem filter_map_task_id (ts : List Task) (tid : Nat) :
    (ts.filter (fun x => decide (x.id ≠ tid))).map Task.id =
      (ts.map Task.id).filter (fun i => decide (i ≠ tid)) := by
  induction ts with
  | nil => rfl
  | cons t ts ih =>
    rw [List.filter_cons, List.map_cons, List.filter_cons]
    by_cases h : t.id = tid
    · rw [if_neg (by simp [h]), if_neg (by simp [h])]
      exact ih
    · rw [if_pos (by simp [h]), if_pos (by simp [h])]
      rw [List.map_cons, ih]

theorem count_filter_ne (l : List Nat) (tid i : Nat) :
    ((l.filter (fun x => decide (x ≠ tid))).count i) =
      if i = tid then 0 else l.count i := by
  by_cases h : i = tid
  · subst h
    rw [if_pos rfl, List.count_eq_zero]
    intro hm
    have := (List.mem_filter.mp hm).2
    simp at this
  · rw [if_neg h]
    exact List.count_filter (by simpa using h)

theorem colTaskIds_removeTaskFromColumn (tid : Nat) (c : Column) :
    colTaskIds (removeTaskFromColumn tid c) =
      (colTaskIds c).filter (fun i => decide (i ≠ tid)) := by
  unfold colTaskIds removeTaskFromColumn
  simp only []
  rw [renumber_map_id, filter_map_task_id]

theorem colTaskIds_insertTaskInColumn (t : Task) (p : Nat) (c : Column) :
    (colTaskIds (insertTaskInColumn t p c)).Perm (t.id :: colTaskIds c) := by
  unfold colTaskIds insertTaskInColumn
  simp only []
  rw [renumber_map_id]
  simpa using (insertAt_perm c.tasks p t).map Task.id

theorem colTaskIds_removeInsertInColumn (tid : Nat) (t : Task) (p : Nat) (c : Column) :
    (colTaskIds (removeInsertInColumn tid t p c)).Perm
      (t.id :: (colTaskIds c).filter (fun i => decide (i ≠ tid))) := by
  unfold colTaskIds removeInsertInColumn
  simp only []
  rw [renumber_map_id]
  have h := (insertAt_perm (c.tasks.filter (fun x => decide (x.id ≠ tid))) p t).map Task.id
  simp only [List.map_cons] at h
  rw [filter_map_task_id] at h
  exact h

theorem colTaskIds_appendTaskToColumn (nid : Nat) (title : String) (c : Column) :
    colTaskIds (appendTaskToColumn nid title c) = colTaskIds c ++ [nid] := by
  unfold colTaskIds appendTaskToColumn
  simp

theorem count_le_one_of_nodup {l : List Nat} (h : l.Nodup) (a : Nat) : l.count a ≤ 1 :=
  List.nodup_iff_count_le_one.mp h a

theorem one_le_count_of_mem {l : List Nat} {a : Nat} (h : a ∈ l) : 1 ≤ l.count a :=
  List.count_pos_iff.mpr h

theorem taskIds_map_pointwise {g : Column → Column} (b : Board)
    (hg : ∀ c, colTaskIds (g c) = colTaskIds c) : taskIds (b.map g) = taskIds b := by
  unfold taskIds
  rw [List.map_map]
  congr 1
  exact List.map_congr_left fun c _ => hg c

/-! ## Counting helpers for the well-formedness proofs -/

theorem count_taskIds_decomp (pre post : Board) (c : Column) (a : Nat) :
    List.count a (taskIds (pre ++ c :: post)) =
      List.count a (taskIds pre) + List.count a (colTaskIds c) +
        List.count a (taskIds post) := by
  rw [taskIds_append, taskIds_cons, List.count_append, List.count_append]
  omega

theorem count_removeInsert (tid : Nat) (t : Task) (p : Nat) (c : Column) (a : Nat) :
    List.count a (colTaskIds (removeInsertInColumn tid t p c)) =
      (if a = tid then 0 else List.count a (colTaskIds c)) +
        (if t.id == a then 1 else 0) := by
  rw [(colTaskIds_removeInsertInColumn tid t p c).count_eq, List.count_cons, count_filter_ne]

theorem count_insertCol (t : Task) (p : Nat) (c : Column) (a : Nat) :
    List.count a (colTaskIds (insertTaskInColumn t p c)) =
      List.count a (colTaskIds c) + (if t.id == a then 1 else 0) := by
  rw [(colTaskIds_insertTaskInColumn t p c).count_eq, List.count_cons]

theorem count_removeCol (tid : Nat) (c : Column) (a : Nat) :
    List.count a (colTaskIds (removeTaskFromColumn tid c)) =
      if a = tid then 0 else List.count a (colTaskIds c) := by
  rw [colTaskIds_removeTaskFromColumn, count_filter_ne]

/-! ## Well-formedness preservation lemmas -/

theorem wf_update_removeInsert {b : Board} {src : Column} {t : Task} {tid : Nat} (p : Nat)
    (hwf : Wf b) (hft : findTask b tid = some (src, t)) :
    Wf (updateColumn b src.id (removeInsertInColumn tid t p)) ∧
      tid ∈ taskIds (updateColumn b src.id (removeInsertInColumn tid t p)) := by
  obtain ⟨hsrc, ht, hid⟩ := findTask_some hft
  obtain ⟨hnd1, hnd2⟩ := hwf
  have hfc : findColumn b src.id = some src := findColumn_of_mem_nodup hsrc hnd1
  obtain ⟨pre, post, hb, hpre, hupd⟩ := findColumn_decomp hfc
  have hS : 1 ≤ List.count tid (colTaskIds src) := by
    apply one_le_count_of_mem
    have hm := List.mem_map_of_mem Task.id ht
    rwa [hid] at hm
  have hcol : (updateColumn b src.id (removeInsertInColumn tid t p)).map Column.id =
      b.map Column.id :=
    updateColumn_map_id (removeInsertInColumn tid t p) (fun c => rfl) b src.id
  have key : ∀ a : Nat,
      List.count a (taskIds (updateColumn b src.id (removeInsertInColumn tid t p))) =
        List.count a (taskIds pre) +
          ((if a = tid then 0 else List.count a (colTaskIds src)) +
            (if t.id == a then 1 else 0)) + List.count a (taskIds post) := by
    intro a
    rw [hupd, count_taskIds_decomp, count_removeInsert]
  have hle : ∀ a : Nat, List.count a (taskIds pre) + List.count a (colTaskIds src) +
      List.count a (taskIds post) ≤ 1 := by
    intro a
    have h := count_le_one_of_nodup hnd2 a
    rwa [hb, count_taskIds_decomp] at h
  refine ⟨⟨by rw [hcol]; exact hnd1, ?_⟩, ?_⟩
  · rw [List.nodup_iff_count_le_one]
    intro a
    rw [key a]
    by_cases ha : a = tid
    · subst ha
      have h1 : (t.id == a) = true := by simp [hid]
      rw [if_pos rfl, h1, if_pos rfl]
      have h2 := hle a
      omega
    · have h1 : (t.id == a) = false := by
        simp only [hid, beq_eq_false_iff_ne, ne_eq]
        exact fun he => ha he.symm
      rw [if_neg ha, h1, if_neg Bool.false_ne_true]
      have h2 := hle a
      omega
  · have h1 : (t.id == tid) = true := by simp [hid]
    have hk := key tid
    rw [if_pos rfl, h1, if_pos rfl] at hk
    apply List.count_pos_iff.mp
    rw [hk]
    omega

theorem wf_update_cross {b : Board} {src tgt : Column} {t : Task} {tid cid : Nat} (p : Nat)
    (hwf : Wf b) (hft : findTask b tid = some (src, t))
    (hfc : findColumn b cid = some tgt) (hne : src.id ≠ cid) :
    Wf (updateColumn (updateColumn b src.id (removeTaskFromColumn tid)) cid
        (insertTaskInColumn t p)) ∧
      tid ∈ taskIds (updateColumn (updateColumn b src.id (removeTaskFromColumn tid)) cid
        (insertTaskInColumn t p)) := by
  obtain ⟨hsrc, ht, hid⟩ := findTask_some hft
  obtain ⟨htgt, htgt_id⟩ := findColumn_some hfc
  obtain ⟨hnd1, hnd2⟩ := hwf
  have hfsrc : findColumn b src.id = some src := findColumn_of_mem_nodup hsrc hnd1
  obtain ⟨pre, post, hb, hpre, hupd⟩ := findColumn_decomp hfsrc
  have hS : 1 ≤ List.count tid (colTaskIds src) := by
    apply one_le_count_of_mem
    have hm := List.mem_map_of_mem Task.id ht
    rwa [hid] at hm
  have hcol1 : (updateColumn b src.id (removeTaskFromColumn tid)).map Column.id =
      b.map Column.id := updateColumn_map_id (removeTaskFromColumn tid) (fun c => rfl) b src.id
  have hnd1' : ((updateColumn b src.id (removeTaskFromColumn tid)).map Column.id).Nodup := by
    rw [hcol1]; exact hnd1
  have htgt_ne : tgt ≠ src := fun he => hne (by rw [← he, htgt_id])
  have htgt1 : tgt ∈ updateColumn b src.id (removeTaskFromColumn tid) := by
    rw [hupd]
    rw [hb] at htgt
    rcases List.mem_append.mp htgt with hm | hm
    · exact List.mem_append.mpr (Or.inl hm)
    · rcases List.mem_cons.mp hm with he | hm'
      · exact absurd he htgt_ne
      · exact List.mem_append.mpr (Or.inr (List.mem_cons_of_mem _ hm'))
  have hfc1 : findColumn (updateColumn b src.id (removeTaskFromColumn tid)) cid = some tgt := by
    rw [← htgt_id]
    exact findColumn_of_mem_nodup htgt1 hnd1'
  obtain ⟨pre2, post2, hb2, hpre2, hupd2⟩ := findColumn_decomp hfc1
  have hcol2 : (updateColumn (updateColumn b src.id (removeTaskFromColumn tid)) cid
      (insertTaskInColumn t p)).map Column.id =
      (updateColumn b src.id (removeTaskFromColumn tid)).map Column.id :=
    updateColumn_map_id (insertTaskInColumn t p) (fun c => rfl) _ cid
  have hcount1 : ∀ a : Nat,
      List.count a (taskIds (updateColumn b src.id (removeTaskFromColumn tid))) =
        List.count a (taskIds pre) +
          (if a = tid then 0 else List.count a (colTaskIds src)) +
          List.count a (taskIds post) := by
    intro a
    rw [hupd, count_taskIds_decomp, count_removeCol]
  have hcount1' : ∀ a : Nat,
      List.count a (taskIds (updateColumn b src.id (removeTaskFromColumn tid))) =
        List.count a (taskIds pre2) + List.count a (colTaskIds tgt) +
          List.count a (taskIds post2) := by
    intro a
    rw [hb2, count_taskIds_decomp]
  have key : ∀ a : Nat,
      List.count a (taskIds (updateColumn (updateColumn b src.id (removeTaskFromColumn tid))
          cid (insertTaskInColumn t p))) =
        List.count a (taskIds pre2) +
          (List.count a (colTaskIds tgt) + (if t.id == a then 1 else 0)) +
          List.count a (taskIds post2) := by
    intro a
    rw [hupd2, count_taskIds_decomp, count_insertCol]
  have hle : ∀ a : Nat, List.count a (taskIds pre) + List.count a (colTaskIds src) +
      List.count a (taskIds post) ≤ 1 := by
    intro a
    have h := count_le_one_of_nodup hnd2 a
    rwa [hb, count_taskIds_decomp] at h
  refine ⟨⟨by rw [hcol2, hcol1]; exact hnd1, ?_⟩, ?_⟩
  · rw [List.nodup_iff_count_le_one]
    intro a
    rw [key a]
    by_cases ha : a = tid
    · subst ha
      have h1 : (t.id == a) = true := by simp [hid]
      rw [h1, if_pos rfl]
      have h2 := hle a
      have h3 := hcount1 a
      rw [if_pos rfl] at h3
      have h4 := hcount1' a
      omega
    · have h1 : (t.id == a) = false := by
        simp only [hid, beq_eq_false_iff_ne, ne_eq]
        exact fun he => ha he.symm
      rw [h1, if_neg Bool.false_ne_true]
      have h2 := hle a
      have h3 := hcount1 a
      rw [if_neg ha] at h3
      have h4 := hcount1' a
      omega
  · have h1 : (t.id == tid) = true := by simp [hid]
    have hk := key tid
    rw [h1, if_pos rfl] at hk
    apply List.count_pos_iff.mp
    rw [hk]
    omega

theorem wf_addTask {b b' : Board} {cid : Nat} {title : String} (hwf : Wf b)
    (h : addTask b cid title = Except.ok b') : Wf b' := by
  obtain ⟨hnd1, hnd2⟩ := hwf
  unfold addTask at h
  by_cases hv : strTrim title = ""
  · rw [if_pos hv] at h
    cases h
  · rw [if_neg hv] at h
    rcases hf : findColumn b cid with _ | c₀
    · rw [hf] at h
      cases h
    · rw [hf] at h
      injection h with h
      subst h
      obtain ⟨pre, post, hb, hpre, hupd⟩ := findColumn_decomp hf
      constructor
      · rw [updateColumn_map_id (appendTaskToColumn (nextTaskId b) title) (fun c => rfl)]
        exact hnd1
      · rw [hupd, List.nodup_iff_count_le_one]
        intro a
        have hfresh : List.count (nextTaskId b) (taskIds b) = 0 :=
          List.count_eq_zero.mpr (nextTaskId_not_mem b)
        have e_b : List.count a (taskIds b) = List.count a (taskIds pre) +
            List.count a (colTaskIds c₀) + List.count a (taskIds post) := by
          rw [hb, count_taskIds_decomp]
        have e' : List.count a (taskIds (pre ++ appendTaskToColumn (nextTaskId b) title c₀ ::
            post)) = List.count a (taskIds pre) + (List.count a (colTaskIds c₀) +
              List.count a [nextTaskId b]) + List.count a (taskIds post) := by
          rw [count_taskIds_decomp, colTaskIds_appendTaskToColumn, List.count_append]
        have hle := count_le_one_of_nodup hnd2 a
        by_cases ha : a = nextTaskId b
        · have e1 : List.count (nextTaskId b) [nextTaskId b] = 1 := by simp
          rw [ha] at e_b e' hle ⊢
          rw [e']
          omega
        · have e1 : List.count a [nextTaskId b] = 0 := by
            simp only [List.count_singleton, beq_iff_eq]
            rw [if_neg (fun he => ha he.symm)]
          rw [e']
          omega

theorem deleteTask_board_eq {b b' : Board} {tid : Nat} (h : deleteTask b tid = Except.ok b') :
    b' = b.map (fun c => if c.tasks.any (fun t => t.id == tid) then
      removeTaskFromColumn tid c else c) := by
  unfold deleteTask at h
  by_cases hany : (b.any fun c => c.tasks.any fun t => t.id == tid) = true
  · rw [if_pos hany] at h
    injection h with h
    exact h.symm
  · rw [if_neg hany] at h
    cases h

theorem taskIds_delete_map (b : Board) (tid : Nat) :
    taskIds (b.map (fun c => if c.tasks.any (fun t => t.id == tid) then
      removeTaskFromColumn tid c else c)) =
      (taskIds b).filter (fun i => decide (i ≠ tid)) := by
  induction b with
  | nil => rfl
  | cons c cs ih =>
    rw [List.map_cons, taskIds_cons, taskIds_cons, List.filter_append, ih]
    congr 1
    by_cases hc : (c.tasks.any (fun t => t.id == tid)) = true
    · rw [if_pos hc, colTaskIds_removeTaskFromColumn]
    · rw [if_neg hc]
      symm
      apply List.filter_eq_self.mpr
      intro i hi
      unfold colTaskIds at hi
      obtain ⟨t, htm, he⟩ := List.mem_map.mp hi
      subst he
      simp only [decide_eq_true_eq, ne_eq]
      intro he'
      rw [List.any_eq_true] at hc
      exact hc ⟨t, htm, by simp [he']⟩

theorem wf_deleteTask {b b' : Board} {tid : Nat} (hwf : Wf b)
    (h : deleteTask b tid = Except.ok b') : Wf b' := by
  obtain ⟨hnd1, hnd2⟩ := hwf
  rw [deleteTask_board_eq h]
  constructor
  · rw [List.map_map]
    have : ∀ c : Column, (Column.id ∘ fun c => if c.tasks.any (fun t => t.id == tid) then
        removeTaskFromColumn tid c else c) c = Column.id c := by
      intro c
      simp only [Function.comp_apply]
      split <;> rfl
    rw [List.map_congr_left (fun c _ => this c)]
    exact hnd1
  · rw [taskIds_delete_map]
    exact hnd2.filter _

theorem editTask_shape {b b' : Board} {tid : Nat} {nt nd : Option String}
    (h : editTask b tid nt nd = Except.ok b') :
    taskIds b' = taskIds b ∧ b'.map Column.id = b.map Column.id ∧
      ∀ c' ∈ b', ∃ c ∈ b, c'.tasks.map Task.pos = c.tasks.map Task.pos ∧
        c'.tasks.length = c.tasks.length := by
  unfold editTask at h
  rcases hf : findTask b tid with _ | st
  · rw [hf] at h
    cases h
  · rw [hf] at h
    by_cases hv : nt = some ""
    · rw [if_pos hv] at h
      cases h
    · rw [if_neg hv] at h
      injection h with h
      subst h
      refine ⟨?_, ?_, ?_⟩
      · apply taskIds_map_pointwise
        intro c
        unfold colTaskIds
        simp only []
        rw [List.map_map]
        apply List.map_congr_left
        intro t _
        simp only [Function.comp_apply]
        split <;> rfl
      · rw [List.map_map]
        apply List.map_congr_left
        intro c _
        rfl
      · intro c' hc'
        obtain ⟨c, hc, he⟩ := List.mem_map.mp hc'
        subst he
        refine ⟨c, hc, ?_, by simp⟩
        simp only []
        rw [List.map_map]
        apply List.map_congr_left
        intro t _
        simp only [Function.comp_apply]
        split <;> rfl

theorem columnsClaiming_eq_zero {b : Board} {tid : Nat} (h : tid ∉ taskIds b) :
    columnsClaiming b tid = 0 := by
  induction b with
  | nil => rfl
  | cons c cs ih =>
    rw [taskIds_cons] at h
    simp only [List.mem_append] at h
    push_neg at h
    unfold columnsClaiming at *
    rw [List.filter_cons]
    have hc : (c.tasks.any (fun t => t.id == tid)) = false := by
      rw [← Bool.not_eq_true, List.any_eq_true]
      rintro ⟨t, htm, he⟩
      apply h.1
      have := List.mem_map_of_mem Task.id htm
      rwa [show t.id = tid by simpa using he] at this
    rw [if_neg (by simp [hc])]
    exact ih h.2

theorem columnsClaiming_one {b : Board} {tid : Nat} (hnd : (taskIds b).Nodup)
    (hm : tid ∈ taskIds b) : columnsClaiming b tid = 1 := by
  induction b with
  | nil => cases hm
  | cons c cs ih =>
    rw [taskIds_cons] at hm hnd
    rw [List.nodup_append] at hnd
    obtain ⟨hnd1, hnd2, hdisj⟩ := hnd
    unfold columnsClaiming at *
    rw [List.filter_cons]
    rcases List.mem_append.mp hm with hin | hin
    · have hc : (c.tasks.any (fun t => t.id == tid)) = true := by
        rw [List.any_eq_true]
        obtain ⟨t, htm, he⟩ := List.mem_map.mp hin
        exact ⟨t, htm, by simp [he]⟩
      rw [if_pos (by simp [hc])]
      have hnotin : tid ∉ taskIds cs := fun hx => hdisj hin hx
      have hz : (cs.filter (fun c => c.tasks.any (fun t => t.id == tid))).length = 0 :=
        columnsClaiming_eq_zero hnotin
      simp only [List.length_cons, hz]
    · have hcf : (c.tasks.any (fun t => t.id == tid)) = false := by
        rw [← Bool.not_eq_true, List.any_eq_true]
        rintro ⟨t, htm, he⟩
        apply hdisj _ hin
        have := List.mem_map_of_mem Task.id htm
        rwa [show t.id = tid by simpa using he] at this
      rw [if_neg (by simp [hcf])]
      exact ih hnd2 hin

/-! ## Lemmas about the string comparison and sorting model -/

theorem charListLe_trans (a : List Char) : ∀ b c : List Char,
    charListLe a b = true → charListLe b c = true → charListLe a c = true := by
  induction a with
  | nil =>
    intro b c h1 h2
    rfl
  | cons x xs ih =>
    intro b c h1 h2
    cases b with
    | nil =>
      unfold charListLe at h1
      cases h1
    | cons y ys =>
      cases c with
      | nil =>
        unfold charListLe at h2
        cases h2
      | cons z zs =>
        unfold charListLe at h1 h2 ⊢
        rcases lt_trichotomy x y with hxy | hxy | hxy
        · rcases lt_trichotomy y z with hyz | hyz | hyz
          · rw [if_pos (lt_trans hxy hyz)]
          · subst hyz
            rw [if_pos hxy]
          · rw [if_neg (asymm hyz), if_pos hyz] at h2
            cases h2
        · subst hxy
          rw [if_neg (lt_irrefl x), if_neg (lt_irrefl x)] at h1
          rcases lt_trichotomy x z with hxz | hxz | hxz
          · rw [if_pos hxz]
          · subst hxz
            rw [if_neg (lt_irrefl x), if_neg (lt_irrefl x)] at h2 ⊢
            exact ih ys zs h1 h2
          · rw [if_neg (asymm hxz), if_pos hxz] at h2
            cases h2
        · rw [if_neg (asymm hxy), if_pos hxy] at h1
          cases h1

theorem charListLe_total (a : List Char) : ∀ b : List Char,
    charListLe a b = true ∨ charListLe b a = true := by
  induction a with
  | nil =>
    intro b
    exact Or.inl rfl
  | cons x xs ih =>
    intro b
    cases b with
    | nil => exact Or.inr rfl
    | cons y ys =>
      unfold charListLe
      rcases lt_trichotomy x y with h | h | h
      · left
        rw [if_pos h]
      · subst h
        simp only [lt_irrefl x, if_false]
        exact ih ys
      · right
        rw [if_pos h]

theorem insertSorted_perm (x : String) (l : List String) :
    (insertSorted x l).Perm (x :: l) := by
  induction l with
  | nil => exact List.Perm.refl _
  | cons y ys ih =>
    unfold insertSorted
    by_cases h : strLe x y = true
    · rw [if_pos h]
    · rw [if_neg h]
      exact (ih.cons y).trans (List.Perm.swap x y ys)

theorem insertSorted_pairwise (x : String) (l : List String)
    (h : l.Pairwise (fun a b => strLe a b = true)) :
    (insertSorted x l).Pairwise (fun a b => strLe a b = true) := by
  induction l with
  | nil => simp [insertSorted]
  | cons y ys ih =>
    rw [List.pairwise_cons] at h
    obtain ⟨hy, hys⟩ := h
    unfold insertSorted
    by_cases hxy : strLe x y = true
    · rw [if_pos hxy, List.pairwise_cons]
      constructor
      · intro z hz
        rcases List.mem_cons.mp hz with rfl | hz'
        · exact hxy
        · exact charListLe_trans _ _ _ hxy (hy z hz')
      · rw [List.pairwise_cons]
        exact ⟨hy, hys⟩
    · rw [if_neg hxy, List.pairwise_cons]
      constructor
      · intro z hz
        have hz2 := (insertSorted_perm x ys).mem_iff.mp hz
        rcases List.mem_cons.mp hz2 with he | hz'
        · rw [he]
          rcases charListLe_total (String.data x) (String.data y) with h | h
          · exact absurd h hxy
          · exact h
        · exact hy z hz'
      · exact ih hys

theorem sortStrings_perm (l : List String) : (sortStrings l).Perm l := by
  induction l with
  | nil => exact List.Perm.refl _
  | cons x xs ih => exact (insertSorted_perm x (sortStrings xs)).trans (ih.cons x)

theorem sortStrings_pairwise (l : List String) :
    (sortStrings l).Pairwise (fun a b => strLe a b = true) := by
  induction l with
  | nil => exact List.Pairwise.nil
  | cons x xs ih => exact insertSorted_pairwise x (sortStrings xs) ih

/-! ## Lemmas about the file-system model and association lookups -/

theorem fsGet_fsRemove_self (fs : FS) (p : String) : fsGet (fsRemove fs p) p = none := by
  induction fs with
  | nil => rfl
  | cons e es ih =>
    obtain ⟨k, v⟩ := e
    unfold fsRemove fsGet at *
    rw [List.filter_cons]
    by_cases h : k = p
    · rw [if_neg (by simp [h])]
      exact ih
    · rw [if_pos (by simp [h])]
      have hk : (p == k) = false := by
        simp only [beq_eq_false_iff_ne, ne_eq]
        exact fun he => h he.symm
      simp only [List.lookup, hk]
      exact ih

theorem lookup_mem {l : List (String × String)} {k v : String}
    (h : l.lookup k = some v) : (k, v) ∈ l := by
  induction l with
  | nil => cases h
  | cons e es ih =>
    obtain ⟨k', v'⟩ := e
    simp only [List.lookup] at h
    rcases hk : (k == k') with _ | _
    · rw [hk] at h
      exact List.mem_cons_of_mem _ (ih h)
    · rw [hk] at h
      injection h with h
      subst h
      have he : k = k' := by simpa using hk
      subst he
      exact List.mem_cons_self _ _

theorem lookup_isSome_of_mem_keys {l : List (String × String)} {k : String}
    (h : k ∈ l.map Prod.fst) : ∃ v, l.lookup k = some v := by
  induction l with
  | nil => cases h
  | cons e es ih =>
    obtain ⟨k', v'⟩ := e
    simp only [List.map_cons, List.mem_cons] at h
    simp only [List.lookup]
    rcases hk : (k == k') with _ | _
    · rcases h with rfl | h'
      · simp at hk
      · obtain ⟨v, hv⟩ := ih h'
        exact ⟨v, hv⟩
    · exact ⟨v', rfl⟩

/-! ## Lemmas about the workspace-listing model -/

theorem entryPair_eq (dataDir : String) (e : DirEntry) :
    entryPair dataDir e = if relevantEntry e = true
      then some (extractWsName e.name, dataDir ++ "/" ++ e.name) else none := by
  unfold entryPair relevantEntry
  by_cases hd : e.isDir = true
  · simp [hd]
  · by_cases hp : (dbFilePrefixStr.data.isPrefixOf e.name.data) = true
    · by_cases hs : ((".db").data.isSuffixOf e.name.data) = true
      · by_cases hw : extractWsName e.name = ""
        · simp [hd, hp, hs, hw]
        · simp [hd, hp, hs, hw]
      · simp [hd, hp, hs]
    · simp [hd, hp]

theorem workspacePairs_eq (dataDir : String) (entries : List DirEntry) :
    workspacePairs dataDir entries =
      (entries.filter relevantEntry).map
        (fun e => (extractWsName e.name, dataDir ++ "/" ++ e.name)) := by
  unfold workspacePairs
  induction entries with
  | nil => rfl
  | cons e es ih =>
    rw [List.filterMap_cons, List.filter_cons, entryPair_eq]
    by_cases hr : relevantEntry e = true
    · simp only [hr, if_true, List.map_cons]
      rw [ih]
    · simp only [hr, if_false, Bool.false_eq_true]
      rw [ih]

/-! ## Claim theorems -/

/-- Claim C1, counterexample: the empty workspace name given to the open
path does not match the pattern, yet it is not rejected — the program
substitutes `default` and proceeds to storage (non-empty operation trace),
so "accepted if and only if the name matches the pattern" is false for
the input `""`. -/
theorem workspace_validation_counterexample :
    workspaceNameMatches "" = false ∧ (runOpenModel "").1 ≠ [] ∧
      (runOpenModel "").2 = Except.ok defaultWorkspace := by
  refine ⟨rfl, ?_, rfl⟩
  intro h
  simp only [runOpenModel] at h
  cases h

/-- Claim C1, amended: for every workspace name given to delete, and every
non-empty name given to open, the name is accepted if and only if it
matches `^[a-z0-9_-]{1,32}$`; a violating name is rejected with a
validation error before any storage access (empty operation trace, file
system unchanged); the empty name given to open is first replaced by
`default`. -/
theorem workspace_name_validation (ws : String) (fs : FS) :
    (ws ≠ "" → ((runOpenModel ws).2 = Except.ok ws ↔ workspaceNameMatches ws = true)) ∧
    (ws ≠ "" → workspaceNameMatches ws = false →
      runOpenModel ws = ([], Except.error KErr.validationError)) ∧
    ((deleteWorkspaceModel ws fs).2.2 ≠ Except.error KErr.validationError ↔
      workspaceNameMatches ws = true) ∧
    (workspaceNameMatches ws = false →
      deleteWorkspaceModel ws fs = ([], fs, Except.error KErr.validationError)) ∧
    runOpenModel "" = runOpenModel defaultWorkspace := by
  refine ⟨?_, ?_, ?_, ?_, rfl⟩
  · intro hne
    unfold runOpenModel
    rw [if_neg hne]
    by_cases hm : workspaceNameMatches ws = true
    · rw [if_pos hm]
      simp [hm]
    · rw [if_neg hm]
      constructor
      · intro h
        cases h
      · intro h
        exact absurd h hm
  · intro hne hm
    unfold runOpenModel
    rw [if_neg hne, if_neg (by simp [hm])]
  · unfold deleteWorkspaceModel
    by_cases hm : workspaceNameMatches ws = true
    · rw [if_pos hm]
      by_cases hfe : fileExists fs (dbFileName ws) = true
      · rw [if_pos hfe]
        simp [hm]
      · rw [if_neg hfe]
        simp [hm]
    · rw [if_neg hm]
      constructor
      · intro h
        exact absurd rfl h
      · intro h
        exact absurd h hm
  · intro hm
    unfold deleteWorkspaceModel
    rw [if_neg (by simp [hm])]

/-- Witness for the amended claim C1 at the spec's own scenario input
`"My Workspace"` (contains a space and an uppercase letter). -/
theorem workspace_name_validation_witness :
    runOpenModel "My Workspace" = ([], Except.error KErr.validationError) ∧
      deleteWorkspaceModel "My Workspace" [] = ([], [], Except.error KErr.validationError) :=
  ⟨(workspace_name_validation "My Workspace" []).2.1 (by decide) (by decide),
   (workspace_name_validation "My Workspace" []).2.2.2.1 (by decide)⟩

/-- Claim C8: the empty workspace flag is not rejected even though it does
not match the naming pattern; it is replaced by `default` before
validation, so an empty name opens the default workspace. -/
theorem empty_workspace_opens_default :
    workspaceNameMatches "" = false ∧
      runOpenModel "" = runOpenModel defaultWorkspace ∧
      (runOpenModel "").2 = Except.ok defaultWorkspace :=
  ⟨rfl, rfl, rfl⟩

/-- Claim C9: the legacy-database migration never overwrites an existing
destination (existing destination or missing legacy source make it a
successful no-op), and when the copy is attempted but fails at the copy,
sync or close step, the partially written destination file is removed. -/
theorem migration_never_overwrites (fs : FS) (oldPath newPath : String) (faults : IOFaults) :
    (fileExists fs newPath = true →
      migrateLegacyDefaultDB fs oldPath newPath faults = (fs, Except.ok ())) ∧
    (fileExists fs oldPath = false →
      migrateLegacyDefaultDB fs oldPath newPath faults = (fs, Except.ok ())) ∧
    (fileExists fs newPath = false → fileExists fs oldPath = true →
      (faults.copyFails = true ∨ faults.syncFails = true ∨ faults.closeFails = true) →
      (migrateLegacyDefaultDB fs oldPath newPath faults).2 = Except.error KErr.storageError ∧
        fsGet (migrateLegacyDefaultDB fs oldPath newPath faults).1 newPath = none) := by
  refine ⟨?_, ?_, ?_⟩
  · intro h
    unfold migrateLegacyDefaultDB
    rw [if_pos h]
  · intro h
    unfold migrateLegacyDefaultDB
    by_cases hn : fileExists fs newPath = true
    · rw [if_pos hn]
    · rw [if_neg hn, if_neg (by simp [h])]
  · intro hnew hold hf
    obtain ⟨v, hv⟩ : ∃ v, fsGet fs oldPath = some v := by
      unfold fileExists at hold
      exact Option.isSome_iff_exists.mp hold
    have hn : fsGet fs newPath = none := by
      unfold fileExists at hnew
      exact Option.not_isSome_iff_eq_none.mp (by simp [hnew])
    unfold migrateLegacyDefaultDB
    rw [if_neg (by simp [hnew]), if_pos hold]
    unfold copyFile
    rw [hv, hn]
    rcases hcf : faults.copyFails with _ | _
    · rcases hsf : faults.syncFails with _ | _
      · rcases hcl : faults.closeFails with _ | _
        · rw [hcf, hsf, hcl] at hf
          rcases hf with h | h | h <;> cases h
        · exact ⟨rfl, fsGet_fsRemove_self _ _⟩
      · exact ⟨rfl, fsGet_fsRemove_self _ _⟩
    · exact ⟨rfl, fsGet_fsRemove_self _ _⟩

/-- Witness for claim C9: each branch exercised at a concrete file system. -/
theorem migration_never_overwrites_witness :
    migrateLegacyDefaultDB [("new.db", 1)] "old.db" "new.db" ⟨false, false, false⟩ =
      ([("new.db", 1)], Except.ok ()) ∧
    migrateLegacyDefaultDB [] "old.db" "new.db" ⟨false, false, false⟩ = ([], Except.ok ()) ∧
    ((migrateLegacyDefaultDB [("old.db", 7)] "old.db" "new.db" ⟨true, false, false⟩).2 =
        Except.error KErr.storageError ∧
      fsGet (migrateLegacyDefaultDB [("old.db", 7)] "old.db" "new.db"
        ⟨true, false, false⟩).1 "new.db" = none) :=
  ⟨(migration_never_overwrites [("new.db", 1)] "old.db" "new.db" ⟨false, false, false⟩).1
      (by decide),
   (migration_never_overwrites [] "old.db" "new.db" ⟨false, false, false⟩).2.1 (by decide),
   (migration_never_overwrites [("old.db", 7)] "old.db" "new.db" ⟨true, false, false⟩).2.2
      (by decide) (by decide) (Or.inl rfl)⟩

/-- Claim C4: moveTask fails with NotFound for an unknown task or column;
otherwise it clamps the target position into `[0, len(target.tasks)]` and
performs the remove/insert with renumbering; on the spec's scenario
(Todo = [A,B,C], moveTask(B, Done, 0)) it yields Todo = [A,C] at positions
[0,1] and Done with B at position 0 and the previous tasks shifted by one. -/
theorem moveTask_spec :
    (∀ (b : Board) (tid cid p : Nat), findTask b tid = none →
      moveTask b tid cid p = Except.error KErr.notFound) ∧
    (∀ (b : Board) (tid cid p : Nat), findColumn b cid = none →
      moveTask b tid cid p = Except.error KErr.notFound) ∧
    (∀ (b : Board) (tid cid p : Nat) (tgt : Column), findColumn b cid = some tgt →
      moveTask b tid cid p = moveTask b tid cid (min p tgt.tasks.length)) ∧
    moveTask
        [⟨10, "Todo", [⟨1, "A", "", 0⟩, ⟨2, "B", "", 1⟩, ⟨3, "C", "", 2⟩]⟩,
         ⟨11, "Done", [⟨4, "D", "", 0⟩, ⟨5, "E", "", 1⟩]⟩] 2 11 0 =
      Except.ok
        [⟨10, "Todo", [⟨1, "A", "", 0⟩, ⟨3, "C", "", 1⟩]⟩,
         ⟨11, "Done", [⟨2, "B", "", 0⟩, ⟨4, "D", "", 1⟩, ⟨5, "E", "", 2⟩]⟩] := by
  refine ⟨?_, ?_, ?_, by decide⟩
  · intro b tid cid p h
    unfold moveTask
    rw [h]
  · intro b tid cid p h
    unfold moveTask
    rcases hft : findTask b tid with _ | st
    · rfl
    · obtain ⟨src, t⟩ := st
      rw [h]
  · intro b tid cid p tgt h
    unfold moveTask
    rcases hft : findTask b tid with _ | st
    · rfl
    · obtain ⟨src, t⟩ := st
      rw [h]
      dsimp only
      have hm : min (min p tgt.tasks.length) tgt.tasks.length = min p tgt.tasks.length := by
        omega
      rw [hm]

/-- Witness for claim C4: the NotFound and clamping conjuncts at concrete
inputs. -/
theorem moveTask_spec_witness :
    moveTask [⟨1, "T", []⟩] 5 1 0 = Except.error KErr.notFound ∧
    moveTask [⟨1, "T", [⟨2, "x", "", 0⟩]⟩] 2 9 0 = Except.error KErr.notFound ∧
    moveTask [⟨1, "T", [⟨2, "x", "", 0⟩]⟩] 2 1 7 =
      moveTask [⟨1, "T", [⟨2, "x", "", 0⟩]⟩] 2 1 (min 7 1) :=
  ⟨moveTask_spec.1 [⟨1, "T", []⟩] 5 1 0 (by decide),
   moveTask_spec.2.1 [⟨1, "T", [⟨2, "x", "", 0⟩]⟩] 2 9 0 (by decide),
   moveTask_spec.2.2.1 [⟨1, "T", [⟨2, "x", "", 0⟩]⟩] 2 1 7 ⟨1, "T", [⟨2, "x", "", 0⟩]⟩
     (by decide)⟩

/-- Claim C5: addTask fails with ValidationError when the title trims to
empty, fails with NotFound for an unknown column (title checked first, as
in the spec's ordering), and otherwise appends a task with the given title
at the end of the column at position max+1 (0 when empty), leaving every
other column unchanged. -/
theorem addTask_spec :
    (∀ (b : Board) (cid : Nat) (title : String), strTrim title = "" →
      addTask b cid title = Except.error KErr.validationError) ∧
    (∀ (b : Board) (cid : Nat) (title : String), strTrim title ≠ "" →
      findColumn b cid = none → addTask b cid title = Except.error KErr.notFound) ∧
    (∀ (b : Board) (cid : Nat) (title : String) (c₀ : Column), strTrim title ≠ "" →
      findColumn b cid = some c₀ →
      ∃ b', addTask b cid title = Except.ok b' ∧
        (∃ nt : Task, nt.title = title ∧
          nt.pos = (if c₀.tasks.isEmpty then 0 else maxPos c₀.tasks + 1) ∧
          findColumn b' cid = some { c₀ with tasks := c₀.tasks ++ [nt] }) ∧
        ∀ cid', cid' ≠ cid → findColumn b' cid' = findColumn b cid') := by
  refine ⟨?_, ?_, ?_⟩
  · intro b cid title h
    unfold addTask
    rw [if_pos h]
  · intro b cid title h1 h2
    unfold addTask
    rw [if_neg h1, h2]
  · intro b cid title c₀ h1 h2
    refine ⟨updateColumn b cid (appendTaskToColumn (nextTaskId b) title), ?_, ?_, ?_⟩
    · unfold addTask
      rw [if_neg h1, h2]
    · refine ⟨Task.mk (nextTaskId b) title "" (if c₀.tasks.isEmpty then 0
          else maxPos c₀.tasks + 1), rfl, rfl, ?_⟩
      exact findColumn_updateColumn_self (appendTaskToColumn (nextTaskId b) title)
        (fun c => rfl) h2
    · intro cid' hne
      exact findColumn_updateColumn_other (appendTaskToColumn (nextTaskId b) title)
        (fun c => rfl) hne

/-- Witness for claim C5: all three conjuncts at concrete boards. -/
theorem addTask_spec_witness :
    addTask [⟨1, "T", []⟩] 1 " " = Except.error KErr.validationError ∧
    addTask [⟨1, "T", []⟩] 2 "x" = Except.error KErr.notFound ∧
    ∃ b', addTask [⟨1, "T", []⟩] 1 "x" = Except.ok b' ∧
      (∃ nt : Task, nt.title = "x" ∧
        nt.pos = (if (List.nil : List Task).isEmpty then 0 else maxPos [] + 1) ∧
        findColumn b' 1 = some ⟨1, "T", [] ++ [nt]⟩) ∧
      ∀ cid', cid' ≠ 1 → findColumn b' cid' = findColumn [⟨1, "T", []⟩] cid' :=
  ⟨addTask_spec.1 [⟨1, "T", []⟩] 1 " " (by decide),
   addTask_spec.2.1 [⟨1, "T", []⟩] 2 "x" (by decide) (by decide),
   addTask_spec.2.2 [⟨1, "T", []⟩] 1 "x" ⟨1, "T", []⟩ (by decide) (by decide)⟩

/-- Claim C6: reorderTask is equivalent to moveTask targeted at the task's
current column, with the same clamping and renumbering; on an unknown task
both fail with NotFound. Column ids must be unique for "the task's current
column" to be well defined. -/
theorem reorderTask_refines_moveTask (b : Board) (tid p : Nat)
    (hnd : (b.map Column.id).Nodup) :
    (∀ (src : Column) (t : Task), findTask b tid = some (src, t) →
      reorderTask b tid p = moveTask b tid src.id p) ∧
    (findTask b tid = none → ∀ cid, reorderTask b tid p = moveTask b tid cid p) := by
  constructor
  · intro src t hft
    obtain ⟨hsrc, ht, hid⟩ := findTask_some hft
    have hfc : findColumn b src.id = some src := findColumn_of_mem_nodup hsrc hnd
    unfold reorderTask moveTask
    rw [hft, hfc]
    dsimp only
    rw [if_pos rfl]
  · intro hft cid
    unfold reorderTask moveTask
    rw [hft]

/-- Witness for claim C6 at a concrete two-column board. -/
theorem reorderTask_refines_moveTask_witness :
    reorderTask [⟨1, "T", [⟨3, "x", "", 0⟩, ⟨4, "y", "", 1⟩]⟩, ⟨2, "U", []⟩] 4 0 =
      moveTask [⟨1, "T", [⟨3, "x", "", 0⟩, ⟨4, "y", "", 1⟩]⟩, ⟨2, "U", []⟩] 4 1 0 :=
  (reorderTask_refines_moveTask
      [⟨1, "T", [⟨3, "x", "", 0⟩, ⟨4, "y", "", 1⟩]⟩, ⟨2, "U", []⟩] 4 0 (by decide)).1
    ⟨1, "T", [⟨3, "x", "", 0⟩, ⟨4, "y", "", 1⟩]⟩ ⟨4, "y", "", 1⟩ (by decide)

/-- Claim C7: deleteTask fails with NotFound when no task has the id (the
board is unchanged, no new board being produced); when the task exists it
is removed — the resulting task ids are exactly the old ones without the
deleted id — and its column is renumbered, every column being either
untouched or position-contiguous. -/
theorem deleteTask_spec :
    (∀ (b : Board) (tid : Nat), findTask b tid = none →
      deleteTask b tid = Except.error KErr.notFound) ∧
    (∀ (b : Board) (tid : Nat) (src : Column) (t : Task), findTask b tid = some (src, t) →
      ∃ b', deleteTask b tid = Except.ok b' ∧
        taskIds b' = (taskIds b).filter (fun i => decide (i ≠ tid)) ∧
        tid ∉ taskIds b' ∧
        ∀ c' ∈ b', c' ∈ b ∨ posOK c') := by
  constructor
  · intro b tid h
    unfold deleteTask
    have hany : (b.any fun c => c.tasks.any fun t => t.id == tid) = false := by
      rw [← Bool.not_eq_true, List.any_eq_true]
      rintro ⟨c, hc, hin⟩
      rw [List.any_eq_true] at hin
      obtain ⟨t, htm, he⟩ := hin
      exact findTask_none_iff.mp h c hc t htm (by simpa using he)
    rw [if_neg (by simp [hany])]
  · intro b tid src t hft
    have hany := any_of_findTask_some hft
    refine ⟨b.map (fun c => if c.tasks.any (fun t => t.id == tid) then
        removeTaskFromColumn tid c else c), ?_, taskIds_delete_map b tid, ?_, ?_⟩
    · unfold deleteTask
      rw [if_pos hany]
    · rw [taskIds_delete_map]
      intro hm
      have hmm := (List.mem_filter.mp hm).2
      simp at hmm
    · intro c' hc'
      obtain ⟨c, hc, he⟩ := List.mem_map.mp hc'
      subst he
      by_cases hcc : (c.tasks.any (fun t => t.id == tid)) = true
      · rw [if_pos hcc]
        exact Or.inr (posOK_removeTaskFromColumn _ _)
      · rw [if_neg hcc]
        exact Or.inl hc

/-- Witness for claim C7: both conjuncts at a concrete board. -/
theorem deleteTask_spec_witness :
    deleteTask [⟨1, "T", [⟨3, "x", "", 0⟩]⟩] 9 = Except.error KErr.notFound ∧
    ∃ b', deleteTask [⟨1, "T", [⟨3, "x", "", 0⟩, ⟨4, "y", "", 1⟩]⟩] 3 = Except.ok b' ∧
      taskIds b' = (taskIds [⟨1, "T", [⟨3, "x", "", 0⟩, ⟨4, "y", "", 1⟩]⟩]).filter
        (fun i => decide (i ≠ 3)) ∧
      3 ∉ taskIds b' ∧
      ∀ c' ∈ b', c' ∈ [⟨1, "T", [⟨3, "x", "", 0⟩, ⟨4, "y", "", 1⟩]⟩] ∨ posOK c' :=
  ⟨deleteTask_spec.1 [⟨1, "T", [⟨3, "x", "", 0⟩]⟩] 9 (by decide),
   deleteTask_spec.2 [⟨1, "T", [⟨3, "x", "", 0⟩, ⟨4, "y", "", 1⟩]⟩] 3
     ⟨1, "T", [⟨3, "x", "", 0⟩, ⟨4, "y", "", 1⟩]⟩ ⟨3, "x", "", 0⟩ (by decide)⟩

/-- Claim C2: after every mutating operation (addTask, editTask, moveTask,
reorderTask, deleteTask) applied to a board whose columns satisfy the
position invariant, and after every load with auto-repair, the positions
in each column are exactly 0..n-1. -/
theorem positions_contiguous_after_mutations :
    (∀ (m : Mutation) (b b' : Board), BoardPosOK b → applyMutation m b = Except.ok b' →
      BoardPosOK b') ∧
    (∀ stored : List Column, BoardPosOK (load stored)) := by
  constructor
  · intro m b b' hb happ
    cases m with
    | add cid title =>
      simp only [applyMutation] at happ
      unfold addTask at happ
      by_cases hv : strTrim title = ""
      · rw [if_pos hv] at happ
        cases happ
      · rw [if_neg hv] at happ
        rcases hf : findColumn b cid with _ | c₀
        · rw [hf] at happ
          cases happ
        · rw [hf] at happ
          injection happ with happ
          subst happ
          intro c' hc'
          rcases mem_updateColumn hc' with hm | ⟨c, hc, he⟩
          · exact hb c' hm
          · subst he
            exact posOK_appendTaskToColumn (hb c hc) _ _
    | edit tid nt nd =>
      simp only [applyMutation] at happ
      obtain ⟨-, -, hshape⟩ := editTask_shape happ
      intro c' hc'
      obtain ⟨c, hc, hp, hl⟩ := hshape c' hc'
      unfold posOK
      rw [hp, hl]
      exact hb c hc
    | move tid cid p =>
      simp only [applyMutation] at happ
      unfold moveTask at happ
      rcases hft : findTask b tid with _ | st
      · rw [hft] at happ
        cases happ
      · obtain ⟨src, t⟩ := st
        rw [hft] at happ
        rcases hfc : findColumn b cid with _ | tgt
        · rw [hfc] at happ
          cases happ
        · rw [hfc] at happ
          dsimp only at happ
          by_cases hsc : src.id = cid
          · rw [if_pos hsc] at happ
            injection happ with happ
            subst happ
            intro c' hc'
            rcases mem_updateColumn hc' with hm | ⟨c, hc, he⟩
            · exact hb c' hm
            · subst he
              exact posOK_removeInsertInColumn _ _ _ _
          · rw [if_neg hsc] at happ
            injection happ with happ
            subst happ
            intro c' hc'
            rcases mem_updateColumn hc' with hm | ⟨c, hc, he⟩
            · rcases mem_updateColumn hm with hm2 | ⟨d, hd, he2⟩
              · exact hb c' hm2
              · subst he2
                exact posOK_removeTaskFromColumn _ _
            · subst he
              exact posOK_insertTaskInColumn _ _ _
    | reorder tid p =>
      simp only [applyMutation] at happ
      unfold reorderTask at happ
      rcases hft : findTask b tid with _ | st
      · rw [hft] at happ
        cases happ
      · obtain ⟨src, t⟩ := st
        rw [hft] at happ
        injection happ with happ
        subst happ
        intro c' hc'
        rcases mem_updateColumn hc' with hm | ⟨c, hc, he⟩
        · exact hb c' hm
        · subst he
          exact posOK_removeInsertInColumn _ _ _ _
    | delete tid =>
      simp only [applyMutation] at happ
      have hbe := deleteTask_board_eq happ
      subst hbe
      intro c' hc'
      obtain ⟨c, hc, he⟩ := List.mem_map.mp hc'
      subst he
      by_cases hcc : (c.tasks.any (fun t => t.id == tid)) = true
      · rw [if_pos hcc]
        exact posOK_removeTaskFromColumn _ _
      · rw [if_neg hcc]
        exact hb c hc
  · intro stored c' hc'
    obtain ⟨c, hc, he⟩ := List.mem_map.mp hc'
    subst he
    exact posOK_renumber _ _ _

/-- Witness for claim C2: the mutation conjunct applied to a concrete move
and the load conjunct at a concrete corrupted store. -/
theorem positions_contiguous_after_mutations_witness :
    BoardPosOK
      [⟨10, "Todo", [⟨1, "A", "", 0⟩, ⟨3, "C", "", 1⟩]⟩,
       ⟨11, "Done", [⟨2, "B", "", 0⟩, ⟨4, "D", "", 1⟩, ⟨5, "E", "", 2⟩]⟩] ∧
    BoardPosOK (load [⟨1, "c", [⟨7, "x", "", 5⟩, ⟨8, "y", "", 2⟩]⟩]) :=
  ⟨positions_contiguous_after_mutations.1 (Mutation.move 2 11 0)
      [⟨10, "Todo", [⟨1, "A", "", 0⟩, ⟨2, "B", "", 1⟩, ⟨3, "C", "", 2⟩]⟩,
       ⟨11, "Done", [⟨4, "D", "", 0⟩, ⟨5, "E", "", 1⟩]⟩]
      [⟨10, "Todo", [⟨1, "A", "", 0⟩, ⟨3, "C", "", 1⟩]⟩,
       ⟨11, "Done", [⟨2, "B", "", 0⟩, ⟨4, "D", "", 1⟩, ⟨5, "E", "", 2⟩]⟩]
      (by decide) (by decide),
   positions_contiguous_after_mutations.2 [⟨1, "c", [⟨7, "x", "", 5⟩, ⟨8, "y", "", 2⟩]⟩]⟩

/-- Claim C3: on a well-formed board every mutating operation preserves
well-formedness, afterwards every task id present belongs to exactly one
column, and a move never leaves the moved task orphaned or duplicated. -/
theorem task_in_exactly_one_column :
    ∀ (m : Mutation) (b b' : Board), Wf b → applyMutation m b = Except.ok b' →
      Wf b' ∧ (∀ tid, tid ∈ taskIds b' → columnsClaiming b' tid = 1) ∧
        (∀ tid cid p, m = Mutation.move tid cid p → tid ∈ taskIds b') := by
  intro m b b' hwf happ
  have main : Wf b' ∧ (∀ tid cid p, m = Mutation.move tid cid p → tid ∈ taskIds b') := by
    cases m with
    | add cid title =>
      refine ⟨wf_addTask hwf happ, ?_⟩
      intro tid' cid' p' he
      cases he
    | edit tid nt nd =>
      simp only [applyMutation] at happ
      obtain ⟨hids, hcols, -⟩ := editTask_shape happ
      refine ⟨⟨?_, ?_⟩, ?_⟩
      · rw [hcols]
        exact hwf.1
      · rw [hids]
        exact hwf.2
      · intro tid' cid' p' he
        cases he
    | move tid cid p =>
      simp only [applyMutation] at happ
      unfold moveTask at happ
      rcases hft : findTask b tid with _ | st
      · rw [hft] at happ
        cases happ
      · obtain ⟨src, t⟩ := st
        rw [hft] at happ
        rcases hfc : findColumn b cid with _ | tgt
        · rw [hfc] at happ
          cases happ
        · rw [hfc] at happ
          dsimp only at happ
          by_cases hsc : src.id = cid
          · rw [if_pos hsc] at happ
            injection happ with happ
            subst happ
            rw [← hsc]
            obtain ⟨hw, hm⟩ := wf_update_removeInsert (min p tgt.tasks.length) hwf hft
            refine ⟨hw, ?_⟩
            intro tid' cid' p' he
            injection he with h1 h2 h3
            subst h1
            exact hm
          · rw [if_neg hsc] at happ
            injection happ with happ
            subst happ
            obtain ⟨hw, hm⟩ := wf_update_cross (min p tgt.tasks.length) hwf hft hfc hsc
            refine ⟨hw, ?_⟩
            intro tid' cid' p' he
            injection he with h1 h2 h3
            subst h1
            exact hm
    | reorder tid p =>
      simp only [applyMutation] at happ
      unfold reorderTask at happ
      rcases hft : findTask b tid with _ | st
      · rw [hft] at happ
        cases happ
      · obtain ⟨src, t⟩ := st
        rw [hft] at happ
        injection happ with happ
        subst happ
        obtain ⟨hw, hm⟩ := wf_update_removeInsert (min p src.tasks.length) hwf hft
        refine ⟨hw, ?_⟩
        intro tid' cid' p' he
        cases he
    | delete tid =>
      refine ⟨wf_deleteTask hwf happ, ?_⟩
      intro tid' cid' p' he
      cases he
  refine ⟨main.1, ?_, main.2⟩
  intro tid hmem
  exact columnsClaiming_one main.1.2 hmem

/-- Witness for claim C3: the theorem applied to a concrete cross-column
move on a well-formed board. -/
theorem task_in_exactly_one_column_witness :
    Wf [⟨10, "Todo", [⟨1, "A", "", 0⟩, ⟨3, "C", "", 1⟩]⟩,
        ⟨11, "Done", [⟨2, "B", "", 0⟩, ⟨4, "D", "", 1⟩, ⟨5, "E", "", 2⟩]⟩] ∧
    (∀ tid, tid ∈ taskIds [⟨10, "Todo", [⟨1, "A", "", 0⟩, ⟨3, "C", "", 1⟩]⟩,
        ⟨11, "Done", [⟨2, "B", "", 0⟩, ⟨4, "D", "", 1⟩, ⟨5, "E", "", 2⟩]⟩] →
      columnsClaiming [⟨10, "Todo", [⟨1, "A", "", 0⟩, ⟨3, "C", "", 1⟩]⟩,
        ⟨11, "Done", [⟨2, "B", "", 0⟩, ⟨4, "D", "", 1⟩, ⟨5, "E", "", 2⟩]⟩] tid = 1) ∧
    (∀ tid cid p, Mutation.move 2 11 0 = Mutation.move tid cid p →
      tid ∈ taskIds [⟨10, "Todo", [⟨1, "A", "", 0⟩, ⟨3, "C", "", 1⟩]⟩,
        ⟨11, "Done", [⟨2, "B", "", 0⟩, ⟨4, "D", "", 1⟩, ⟨5, "E", "", 2⟩]⟩]) :=
  task_in_exactly_one_column (Mutation.move 2 11 0)
    [⟨10, "Todo", [⟨1, "A", "", 0⟩, ⟨2, "B", "", 1⟩, ⟨3, "C", "", 2⟩]⟩,
     ⟨11, "Done", [⟨4, "D", "", 0⟩, ⟨5, "E", "", 1⟩]⟩]
    [⟨10, "Todo", [⟨1, "A", "", 0⟩, ⟨3, "C", "", 1⟩]⟩,
     ⟨11, "Done", [⟨2, "B", "", 0⟩, ⟨4, "D", "", 1⟩, ⟨5, "E", "", 2⟩]⟩]
    (by decide) (by decide)

/-- Claim C10: listing considers exactly the non-directory entries whose
names carry the db prefix and the `.db` suffix with a non-empty extracted
workspace name; it prints the extracted names in ascending lexicographic
order, one per line together with the file path, and prints
"No workspaces found." when the data directory is missing or no such
entry exists. -/
theorem listWorkspaces_spec (dataDir : String) (entries : List DirEntry) :
    listWorkspaceOutput false dataDir entries = ["No workspaces found."] ∧
    (entries.filter relevantEntry = [] →
      listWorkspaceOutput true dataDir entries = ["No workspaces found."]) ∧
    (entries.filter relevantEntry ≠ [] →
      ∃ sorted : List String,
        sorted.Perm ((entries.filter relevantEntry).map (fun e => extractWsName e.name)) ∧
        sorted.Pairwise (fun a b => strLe a b = true) ∧
        ∃ pathOf : String → String,
          listWorkspaceOutput true dataDir entries =
            sorted.map (fun ws => ws ++ "\t" ++ pathOf ws) ∧
          ∀ ws ∈ sorted, ∃ e, e ∈ entries ∧ relevantEntry e = true ∧
            extractWsName e.name = ws ∧ pathOf ws = dataDir ++ "/" ++ e.name) := by
  have hnames : (workspacePairs dataDir entries).map Prod.fst =
      (entries.filter relevantEntry).map (fun e => extractWsName e.name) := by
    rw [workspacePairs_eq, List.map_map]
    rfl
  refine ⟨by unfold listWorkspaceOutput; rw [if_neg (by simp)], ?_, ?_⟩
  · intro h
    unfold listWorkspaceOutput
    rw [if_pos rfl]
    have hp : workspacePairs dataDir entries = [] := by
      rw [workspacePairs_eq, h]
      rfl
    rw [hp]
    rfl
  · intro h
    refine ⟨sortStrings ((workspacePairs dataDir entries).map Prod.fst), ?_,
      sortStrings_pairwise _, ?_⟩
    · exact hnames ▸ sortStrings_perm _
    · refine ⟨lookupPathFor (workspacePairs dataDir entries), ?_, ?_⟩
      · unfold listWorkspaceOutput
        rw [if_pos rfl]
        have hne : sortStrings ((workspacePairs dataDir entries).map Prod.fst) ≠ [] := by
          intro he
          have hperm := sortStrings_perm ((workspacePairs dataDir entries).map Prod.fst)
          rw [he] at hperm
          have h2 : (workspacePairs dataDir entries).map Prod.fst = [] := hperm.symm.eq_nil
          rw [hnames] at h2
          exact h (List.map_eq_nil_iff.mp h2)
        rw [if_neg hne]
      · intro ws hws
        have hmem : ws ∈ (workspacePairs dataDir entries).map Prod.fst :=
          (sortStrings_perm _).mem_iff.mp hws
        have hmem' : ws ∈ ((workspacePairs dataDir entries).reverse).map Prod.fst := by
          rw [List.map_reverse, List.mem_reverse]
          exact hmem
        obtain ⟨v, hv⟩ := lookup_isSome_of_mem_keys hmem'
        have hpair : (ws, v) ∈ (workspacePairs dataDir entries).reverse := lookup_mem hv
        rw [List.mem_reverse, workspacePairs_eq] at hpair
        obtain ⟨e, he, heq⟩ := List.mem_map.mp hpair
        refine ⟨e, (List.mem_filter.mp he).1, (List.mem_filter.mp he).2, ?_, ?_⟩
        · exact congrArg Prod.fst heq
        · unfold lookupPathFor
          rw [hv]
          exact (congrArg Prod.snd heq).symm

/-- Witness for claim C10: a concrete directory with qualifying entries,
a directory entry that is filtered out, and a malformed name. -/
theorem listWorkspaces_spec_witness :
    listWorkspaceOutput false "d" [] = ["No workspaces found."] ∧
    listWorkspaceOutput true "d" [⟨"notes.txt", false⟩] = ["No workspaces found."] ∧
    (∃ sorted : List String,
      sorted.Perm (([⟨"cli_kanban__beta.db", false⟩, ⟨"cli_kanban__alpha.db", false⟩,
          ⟨"cli_kanban__.db", false⟩, ⟨"cli_kanban__x.db", true⟩].filter
            relevantEntry).map (fun e => extractWsName e.name)) ∧
      sorted.Pairwise (fun a b => strLe a b = true) ∧
      ∃ pathOf : String → String,
        listWorkspaceOutput true "d" [⟨"cli_kanban__beta.db", false⟩,
            ⟨"cli_kanban__alpha.db", false⟩, ⟨"cli_kanban__.db", false⟩,
            ⟨"cli_kanban__x.db", true⟩] =
          sorted.map (fun ws => ws ++ "\t" ++ pathOf ws) ∧
        ∀ ws ∈ sorted, ∃ e, e ∈ [⟨"cli_kanban__beta.db", false⟩,
            ⟨"cli_kanban__alpha.db", false⟩, ⟨"cli_kanban__.db", false⟩,
            ⟨"cli_kanban__x.db", true⟩] ∧ relevantEntry e = true ∧
          extractWsName e.name = ws ∧ pathOf ws = "d" ++ "/" ++ e.name) :=
  ⟨(listWorkspaces_spec "d" []).1,
   (listWorkspaces_spec "d" [⟨"notes.txt", false⟩]).2.1 (by decide),
   (listWorkspaces_spec "d" [⟨"cli_kanban__beta.db", false⟩,
      ⟨"cli_kanban__alpha.db", false⟩, ⟨"cli_kanban__.db", false⟩,
      ⟨"cli_kanban__x.db", true⟩]).2.2 (by decide)⟩

end CliKanban
